import Mathlib

/-!
Verification of the `intfloat` decimal value type.

The type stores a number as an integer significand `base` together with a
power-of-ten exponent `pow`; the represented real number is
`base * 10 ^ (-pow)` (this is the convention of the source's conversion
functions `to_f32`/`to_f64`).  Machine `isize` arithmetic is embedded as
unbounded `Int`: the source performs no overflow checking and the
specification places overflow out of scope.
-/

/-- The decimal value: significand `base` and scale `pow`
(source struct `IntFloat { base: isize, pow: isize }`). -/
structure IntFloat where
  base : Int
  pow : Int
deriving DecidableEq, Repr

namespace IntFloat

/-- Source `IntFloat::new(base, pow)`: stores the pair verbatim. -/
def new (base pow : Int) : IntFloat := ⟨base, pow⟩

/-- Source `Add::add`: if `rhs.pow > self.pow` rescale `self.base` up by
`10^(rhs.pow - self.pow)` and keep `rhs.pow`, otherwise rescale `rhs.base`
up by `10^(self.pow - rhs.pow)` and keep `self.pow`. -/
def add (a b : IntFloat) : IntFloat :=
  if b.pow > a.pow then
    ⟨a.base * 10 ^ (b.pow - a.pow).toNat + b.base, b.pow⟩
  else
    ⟨b.base * 10 ^ (a.pow - b.pow).toNat + a.base, a.pow⟩

/-- Source `Zero::zero`. -/
def zero : IntFloat := ⟨0, 0⟩

/-- Source `Zero::is_zero`: tests only the significand. -/
def is_zero (a : IntFloat) : Bool := a.base == 0

/-- Source `One::one`. -/
def one : IntFloat := ⟨1, 0⟩

/-- Source `Mul::mul`: significands multiply, scales add. -/
def mul (a b : IntFloat) : IntFloat := ⟨a.base * b.base, a.pow + b.pow⟩

/-- Source `Sub::sub`: addition of the right operand with negated
significand and unchanged scale. -/
def sub (a b : IntFloat) : IntFloat := a.add ⟨-b.base, b.pow⟩

/-- Source `Div::div`: significands divide by Rust `isize` division,
i.e. truncation toward zero (`Int.tdiv`); scales subtract. -/
def div (a b : IntFloat) : IntFloat := ⟨a.base.tdiv b.base, a.pow - b.pow⟩

/-- Source `Rem::rem`: `self - self.div(rhs).mul(rhs)`. -/
def rem (a b : IntFloat) : IntFloat := a.sub ((a.div b).mul b)

/-- Source `PartialEq::eq`: rescale the operand with the smaller scale up
to the larger scale and compare significands exactly. -/
def beq (a b : IntFloat) : Bool :=
  if b.pow > a.pow then
    b.base == a.base * 10 ^ (b.pow - a.pow).toNat
  else
    a.base == b.base * 10 ^ (a.pow - b.pow).toNat

/-- Source `#[derive(PartialOrd)]` on `struct IntFloat { base, pow }`:
the derived comparison is lexicographic on the raw fields, comparing
`base` first and `pow` only on ties (each field by `isize` order). -/
def derivedCmp (a b : IntFloat) : Ordering :=
  if a.base < b.base then .lt
  else if a.base = b.base then
    (if a.pow < b.pow then .lt else if a.pow = b.pow then .eq else .gt)
  else .gt

/-- Source `Sum::sum`: starts from `one()` and repeatedly `+=`s the
elements in iteration order. -/
def sumList (l : List IntFloat) : IntFloat := l.foldl IntFloat.add IntFloat.one

/-- Exact rational value represented by an `IntFloat`, following the
source conversions `to_f32`/`to_f64`: `base * 10^(-pow)`. -/
def val (a : IntFloat) : ℚ := (a.base : ℚ) * 10 ^ (-a.pow)

end IntFloat

/-- Rust `ParseIntError` kinds reachable from `from_str_radix` with
unbounded integers. -/
inductive IntErrorKind where
  | empty
  | invalidDigit
deriving DecidableEq, Repr

/-- Rust `char::to_digit(radix)`: ASCII digit or letter value, accepted
only when below the radix. -/
def charToDigit (c : Char) (radix : Nat) : Option Nat :=
  let d : Option Nat :=
    if '0' ≤ c ∧ c ≤ '9' then some (c.toNat - '0'.toNat)
    else if 'a' ≤ c ∧ c ≤ 'z' then some (c.toNat - 'a'.toNat + 10)
    else if 'A' ≤ c ∧ c ≤ 'Z' then some (c.toNat - 'A'.toNat + 10)
    else none
  match d with
  | some v => if v < radix then some v else none
  | none => none

/-- Digit-accumulation loop of Rust `isize::from_str_radix`:
`acc = acc * radix + digit`, failing on the first invalid digit. -/
def parseDigits (radix : Nat) : List Char → Nat → Except IntErrorKind Nat
  | [], acc => .ok acc
  | c :: cs, acc =>
    match charToDigit c radix with
    | some d => parseDigits radix cs (acc * radix + d)
    | none => .error .invalidDigit

/-- Rust `isize::from_str_radix`: empty input is `Empty`; an optional
leading sign must be followed by at least one digit; digits accumulate in
the given radix (overflow is out of scope, so the value is unbounded). -/
def isizeFromStrRadix (s : String) (radix : Nat) : Except IntErrorKind Int :=
  match s.data with
  | [] => .error .empty
  | c :: rest =>
    if c = '+' then
      if rest.isEmpty then .error .invalidDigit
      else (parseDigits radix rest 0).map (fun n => (n : Int))
    else if c = '-' then
      if rest.isEmpty then .error .invalidDigit
      else (parseDigits radix rest 0).map (fun n => -(n : Int))
    else
      (parseDigits radix (c :: rest) 0).map (fun n => (n : Int))

namespace IntFloat

/-- Source `Num::from_str_radix`: parse the text with
`isize::from_str_radix`, propagate its error, otherwise wrap the integer
with scale 0. -/
def from_str_radix (s : String) (radix : Nat) : Except IntErrorKind IntFloat :=
  match isizeFromStrRadix s radix with
  | .error e => .error e
  | .ok num => .ok ⟨num, 0⟩

end IntFloat

/-! ## Semantic lemmas about the rational value -/

namespace IntFloat

lemma ten_zpow_ne_zero (n : ℤ) : (10 : ℚ) ^ n ≠ 0 :=
  zpow_ne_zero n (by norm_num)

lemma zpow_toNat_mul {p q : ℤ} (h : p ≤ q) :
    (10 : ℚ) ^ (q - p).toNat * (10 : ℚ) ^ (-q) = (10 : ℚ) ^ (-p) := by
  rw [← zpow_natCast (10 : ℚ) (q - p).toNat, Int.toNat_of_nonneg (by omega),
    ← zpow_add₀ (by norm_num : (10 : ℚ) ≠ 0)]
  have he : q - p + -q = -p := by omega
  rw [he]

/-- Addition is exact on the represented rational values. -/
theorem val_add (a b : IntFloat) : (a.add b).val = a.val + b.val := by
  by_cases h : b.pow > a.pow
  · simp only [IntFloat.add]
    rw [if_pos h]
    simp only [val]
    push_cast
    rw [add_mul, mul_assoc, zpow_toNat_mul (le_of_lt h)]
  · simp only [IntFloat.add]
    rw [if_neg h]
    simp only [val]
    push_cast
    rw [add_mul, mul_assoc, zpow_toNat_mul (by omega : b.pow ≤ a.pow)]
    ring

/-- Subtraction is exact on the represented rational values. -/
theorem val_sub (a b : IntFloat) : (a.sub b).val = a.val - b.val := by
  simp only [IntFloat.sub]
  rw [val_add]
  simp only [val]
  push_cast
  ring

/-- Multiplication is exact on the represented rational values. -/
theorem val_mul (a b : IntFloat) : (a.mul b).val = a.val * b.val := by
  simp only [IntFloat.mul, val]
  push_cast
  rw [neg_add, zpow_add₀ (by norm_num : (10 : ℚ) ≠ 0)]
  ring

/-- Multiplying the significand by `10^k` while adding `k` to the scale
leaves the represented value unchanged. -/
theorem val_scale (s p : ℤ) (k : ℕ) :
    (IntFloat.mk (s * 10 ^ k) (p + k)).val = (IntFloat.mk s p).val := by
  simp only [val]
  push_cast
  rw [mul_assoc, ← zpow_natCast (10 : ℚ) k,
    ← zpow_add₀ (by norm_num : (10 : ℚ) ≠ 0)]
  have he : (k : ℤ) + -(p + k) = -p := by ring
  rw [he]

/-- At equal scales, value equality is significand equality. -/
theorem val_mk_inj (x y p : ℤ) :
    (IntFloat.mk x p).val = (IntFloat.mk y p).val ↔ x = y := by
  simp only [val]
  constructor
  · intro h
    have h2 := mul_right_cancel₀ (ten_zpow_ne_zero (-p)) h
    exact_mod_cast h2
  · rintro rfl
    rfl

/-- Value equality across scales is exact alignment of significands. -/
theorem val_eq_iff_of_le (x p y q : ℤ) (h : p ≤ q) :
    (IntFloat.mk x p).val = (IntFloat.mk y q).val ↔
      y = x * 10 ^ (q - p).toNat := by
  obtain ⟨k, rfl⟩ : ∃ k : ℕ, q = p + k := ⟨(q - p).toNat, by omega⟩
  have hk : (p + (k : ℤ) - p).toNat = k := by omega
  rw [hk, ← val_scale x p k, val_mk_inj]
  exact eq_comm

/-- The source equality test decides exactly equality of represented
rational values. -/
theorem beq_iff_val (a b : IntFloat) : a.beq b = true ↔ a.val = b.val := by
  rcases a with ⟨x, p⟩
  rcases b with ⟨y, q⟩
  by_cases h : q > p
  · simp only [IntFloat.beq]
    rw [if_pos h, beq_iff_eq, val_eq_iff_of_le x p y q (le_of_lt h)]
  · simp only [IntFloat.beq]
    rw [if_neg h, beq_iff_eq,
      show ((IntFloat.mk x p).val = (IntFloat.mk y q).val) ↔
        ((IntFloat.mk y q).val = (IntFloat.mk x p).val) from eq_comm,
      val_eq_iff_of_le y q x p (by omega)]

/-- Folding `add` over a list adds all the values to the accumulator. -/
theorem val_foldl (l : List IntFloat) (acc : IntFloat) :
    (l.foldl IntFloat.add acc).val = acc.val + (l.map IntFloat.val).sum := by
  induction l generalizing acc with
  | nil => simp
  | cons x xs ih =>
    simp only [List.foldl_cons, List.map_cons, List.sum_cons]
    rw [ih, val_add]
    ring

end IntFloat

/-! ## Claims -/

/-- C1: equality is scale-independent — `fromRaw(s, p)` compares equal to
`fromRaw(s*10^k, p+k)` for every non-negative integer `k`; the equality
relation is symmetric; and it is computed by rescaling the operand with
the smaller scale up to the larger scale and comparing significands
exactly. -/
theorem c1_eq_scale_independent :
    (∀ (s p : ℤ) (k : ℕ), IntFloat.beq ⟨s, p⟩ ⟨s * 10 ^ k, p + k⟩ = true) ∧
    (∀ a b : IntFloat, IntFloat.beq a b = IntFloat.beq b a) ∧
    (∀ a b : IntFloat, a.pow ≤ b.pow →
      (IntFloat.beq a b = true ↔ b.base = a.base * 10 ^ (b.pow - a.pow).toNat)) := by
  refine ⟨?_, ?_, ?_⟩
  · intro s p k
    rw [IntFloat.beq_iff_val]
    exact (IntFloat.val_scale s p k).symm
  · intro a b
    have h1 := IntFloat.beq_iff_val a b
    have h2 := IntFloat.beq_iff_val b a
    by_cases hv : a.val = b.val
    · rw [h1.mpr hv, h2.mpr hv.symm]
    · have n1 : a.beq b = false :=
        Bool.not_eq_true _ ▸ (fun hh => hv (h1.mp hh))
      have n2 : b.beq a = false :=
        Bool.not_eq_true _ ▸ (fun hh => hv ((h2.mp hh).symm))
      rw [n1, n2]
  · intro a b h
    rcases a with ⟨x, p⟩
    rcases b with ⟨y, q⟩
    rw [IntFloat.beq_iff_val]
    exact IntFloat.val_eq_iff_of_le x p y q h

/-- C1 witness: the alignment clause applied at `(5,-2)` and `(500,0)`. -/
theorem c1_eq_scale_independent_witness :
    ((⟨5, -2⟩ : IntFloat).pow ≤ (⟨500, 0⟩ : IntFloat).pow) ∧
    (IntFloat.beq ⟨5, -2⟩ ⟨500, 0⟩ = true ↔
      (500 : ℤ) = 5 * 10 ^ (((0 : ℤ) - (-2 : ℤ)).toNat)) :=
  ⟨by decide, c1_eq_scale_independent.2.2 ⟨5, -2⟩ ⟨500, 0⟩ (by decide)⟩

/-- C2 counterexample: `(500, 0)` and `(5, -2)` both represent 500 and
compare equal, yet the derived ordering says `(500, 0)` is strictly
greater (it compares raw significands first), and says `(5, -2)` is
strictly less — so equal values are not ordered as 'equal'. -/
theorem c2_order_counterexample :
    IntFloat.beq ⟨500, 0⟩ ⟨5, -2⟩ = true ∧
    IntFloat.derivedCmp ⟨500, 0⟩ ⟨5, -2⟩ = .gt ∧
    ¬ IntFloat.derivedCmp ⟨500, 0⟩ ⟨5, -2⟩ = .eq ∧
    IntFloat.beq ⟨5, -2⟩ ⟨500, 0⟩ = true ∧
    IntFloat.derivedCmp ⟨5, -2⟩ ⟨500, 0⟩ = .lt := by
  refine ⟨by decide, by decide, by decide, by decide, by decide⟩

/-- C2 (amended): the derived ordering is lexicographic on the raw
(significand, scale) pair — significands compare first, scale breaks
ties — so it agrees with equality and with significand comparison only
when the two operands carry the same scale. -/
theorem c2_derived_order_lexicographic :
    (∀ a b : IntFloat, a.base < b.base → IntFloat.derivedCmp a b = .lt) ∧
    (∀ a b : IntFloat, b.base < a.base → IntFloat.derivedCmp a b = .gt) ∧
    (∀ a b : IntFloat, a.base = b.base →
      IntFloat.derivedCmp a b =
        (if a.pow < b.pow then .lt else if a.pow = b.pow then .eq else .gt)) ∧
    (∀ a b : IntFloat, a.pow = b.pow →
      ((IntFloat.beq a b = true ↔ IntFloat.derivedCmp a b = .eq) ∧
       (IntFloat.derivedCmp a b = .lt ↔ a.base < b.base))) := by
  refine ⟨?_, ?_, ?_, ?_⟩
  · intro a b h
    simp only [IntFloat.derivedCmp]
    rw [if_pos h]
  · intro a b h
    simp only [IntFloat.derivedCmp]
    rw [if_neg (by omega), if_neg (by omega)]
  · intro a b h
    simp only [IntFloat.derivedCmp]
    rw [if_neg (by omega), if_pos h]
  · intro a b hp
    have hbeq : IntFloat.beq a b = (a.base == b.base) := by
      simp only [IntFloat.beq, hp]
      rw [if_neg (by omega), sub_self, Int.toNat_zero, pow_zero, mul_one]
    constructor
    · rw [hbeq, beq_iff_eq]
      simp only [IntFloat.derivedCmp]
      constructor
      · intro h
        rw [if_neg (by omega), if_pos h, if_neg (by omega), if_pos hp]
      · intro h
        by_cases h1 : a.base < b.base
        · rw [if_pos h1] at h
          exact absurd h (by simp)
        · by_cases h2 : a.base = b.base
          · exact h2
          · rw [if_neg h1, if_neg h2] at h
            exact absurd h (by simp)
    · simp only [IntFloat.derivedCmp]
      constructor
      · intro h
        by_cases h1 : a.base < b.base
        · exact h1
        · rw [if_neg h1] at h
          by_cases h2 : a.base = b.base
          · rw [if_pos h2, if_neg (by omega), if_pos hp] at h
            exact absurd h (by simp)
          · rw [if_neg h2] at h
            exact absurd h (by simp)
      · intro h
        rw [if_pos h]

/-- C2 amended witness: the same-scale clause applied at `(3,1)` and
`(4,1)`. -/
theorem c2_derived_order_lexicographic_witness :
    ((⟨3, 1⟩ : IntFloat).pow = (⟨4, 1⟩ : IntFloat).pow) ∧
    ((IntFloat.beq ⟨3, 1⟩ ⟨4, 1⟩ = true ↔
        IntFloat.derivedCmp ⟨3, 1⟩ ⟨4, 1⟩ = .eq) ∧
     (IntFloat.derivedCmp ⟨3, 1⟩ ⟨4, 1⟩ = .lt ↔ (3 : ℤ) < 4)) :=
  ⟨rfl, c2_derived_order_lexicographic.2.2.2 ⟨3, 1⟩ ⟨4, 1⟩ rfl⟩

/-- C3: addition aligns the smaller scale up to the larger — if
`scaleB > scaleA` the result is `(sigA*10^(scaleB-scaleA) + sigB, scaleB)`,
otherwise `(sigB*10^(scaleA-scaleB) + sigA, scaleA)`; in particular
`(534,0) + (100,2)` equals `(53500,2)` and `(534,-2) + (534,-2)` equals
`(1068,-2)`. -/
theorem c3_add_alignment :
    (∀ (a b : IntFloat) (k : ℕ), 0 < k → b.pow = a.pow + k →
      a.add b = ⟨a.base * 10 ^ k + b.base, b.pow⟩) ∧
    (∀ (a b : IntFloat) (k : ℕ), a.pow = b.pow + k →
      a.add b = ⟨b.base * 10 ^ k + a.base, a.pow⟩) ∧
    IntFloat.beq (IntFloat.add ⟨534, 0⟩ ⟨100, 2⟩) ⟨53500, 2⟩ = true ∧
    IntFloat.beq (IntFloat.add ⟨534, -2⟩ ⟨534, -2⟩) ⟨1068, -2⟩ = true := by
  refine ⟨?_, ?_, by decide, by decide⟩
  · intro a b k hk hb
    have hcond : b.pow > a.pow := by omega
    have he : (b.pow - a.pow).toNat = k := by omega
    simp only [IntFloat.add]
    rw [if_pos hcond, he]
  · intro a b k hb
    have hcond : ¬ b.pow > a.pow := by omega
    have he : (a.pow - b.pow).toNat = k := by omega
    simp only [IntFloat.add]
    rw [if_neg hcond, he]

/-- C3 witness: the rising-scale clause applied at `(534,0)` and
`(100,2)`. -/
theorem c3_add_alignment_witness :
    (0 < 2 ∧ (⟨100, 2⟩ : IntFloat).pow = (⟨534, 0⟩ : IntFloat).pow + (2 : ℕ)) ∧
    IntFloat.add ⟨534, 0⟩ ⟨100, 2⟩ = ⟨534 * 10 ^ 2 + 100, 2⟩ :=
  ⟨⟨by decide, by decide⟩,
    c3_add_alignment.1 ⟨534, 0⟩ ⟨100, 2⟩ 2 (by decide) (by decide)⟩

/-- C4: `(a + b) - b == a` under the scale-independent equality, for all
values; and subtraction is addition of the right operand with negated
significand and unchanged scale. -/
theorem c4_sub_inverse_of_add :
    (∀ a b : IntFloat, IntFloat.beq ((a.add b).sub b) a = true) ∧
    (∀ a b : IntFloat, a.sub b = a.add ⟨-b.base, b.pow⟩) := by
  refine ⟨?_, fun a b => rfl⟩
  intro a b
  rw [IntFloat.beq_iff_val, IntFloat.val_sub, IntFloat.val_add]
  ring

/-- C5: division truncates the significand quotient toward zero and
subtracts scales — the quotient significand satisfies the truncating
Euclidean identity `sigB * q + tmod(sigA, sigB) = sigA` and its magnitude
is the floor of `|sigA| / |sigB|`; in particular `(250000,-4) / (500,-2)`
equals `(500,-2)`. -/
theorem c5_div_truncates_scales_subtract :
    (∀ a b : IntFloat, b.base ≠ 0 →
      a.div b = ⟨a.base.tdiv b.base, a.pow - b.pow⟩ ∧
      b.base * (a.div b).base + a.base.tmod b.base = a.base ∧
      (a.div b).base.natAbs = a.base.natAbs / b.base.natAbs) ∧
    IntFloat.beq (IntFloat.div ⟨250000, -4⟩ ⟨500, -2⟩) ⟨500, -2⟩ = true := by
  refine ⟨?_, by decide⟩
  intro a b _hb
  refine ⟨rfl, ?_, ?_⟩
  · exact Int.tdiv_add_tmod a.base b.base
  · exact Int.natAbs_tdiv a.base b.base

/-- C5 witness: the division clause applied at `(250000,-4)` and
`(500,-2)`. -/
theorem c5_div_truncates_scales_subtract_witness :
    ((⟨500, -2⟩ : IntFloat).base ≠ 0) ∧
    IntFloat.div ⟨250000, -4⟩ ⟨500, -2⟩ =
      ⟨(250000 : ℤ).tdiv 500, (-4 : ℤ) - (-2)⟩ :=
  ⟨by decide,
    (c5_div_truncates_scales_subtract.1 ⟨250000, -4⟩ ⟨500, -2⟩ (by decide)).1⟩

/-- C6: for every `a` and `b` with non-zero significand of `b`,
`a == (a/b)*b + a%b` under the scale-independent equality, where `a%b` is
defined as `a - (a div b) * b`. -/
theorem c6_rem_identity :
    ∀ a b : IntFloat, b.base ≠ 0 →
      IntFloat.beq a (((a.div b).mul b).add (a.rem b)) = true ∧
      a.rem b = a.sub ((a.div b).mul b) := by
  intro a b _hb
  refine ⟨?_, rfl⟩
  rw [IntFloat.beq_iff_val, IntFloat.val_add]
  simp only [IntFloat.rem]
  rw [IntFloat.val_sub]
  ring

/-- C6 witness: the remainder identity applied at `(250000,-4)` and
`(499,-2)`. -/
theorem c6_rem_identity_witness :
    ((⟨499, -2⟩ : IntFloat).base ≠ 0) ∧
    IntFloat.beq ⟨250000, -4⟩
      ((((⟨250000, -4⟩ : IntFloat).div ⟨499, -2⟩).mul ⟨499, -2⟩).add
        ((⟨250000, -4⟩ : IntFloat).rem ⟨499, -2⟩)) = true :=
  ⟨by decide, (c6_rem_identity ⟨250000, -4⟩ ⟨499, -2⟩ (by decide)).1⟩

/-- C7: summation starts from the multiplicative identity `one()`
(significand 1, scale 0), not zero — the empty sum is `one()`, elements
are added in order, and every sum's value is 1 greater than the
mathematical sum of the elements' values. -/
theorem c7_sum_starts_from_one :
    (IntFloat.sumList [] = IntFloat.one) ∧
    (∀ (l : List IntFloat) (x : IntFloat),
      IntFloat.sumList (l ++ [x]) = (IntFloat.sumList l).add x) ∧
    (∀ l : List IntFloat,
      (IntFloat.sumList l).val = 1 + (l.map IntFloat.val).sum) := by
  refine ⟨rfl, ?_, ?_⟩
  · intro l x
    simp [IntFloat.sumList, List.foldl_append]
  · intro l
    rw [IntFloat.sumList, IntFloat.val_foldl]
    norm_num [IntFloat.val, IntFloat.one]

/-- C10: the significand-only zero test agrees with the scale-independent
equality against `zero()` at every scale. -/
theorem c10_is_zero_iff_beq_zero :
    ∀ x : IntFloat, x.is_zero = true ↔ IntFloat.beq x IntFloat.zero = true := by
  intro x
  rw [IntFloat.beq_iff_val]
  simp only [IntFloat.is_zero, beq_iff_eq]
  constructor
  · intro h
    simp [IntFloat.val, IntFloat.zero, h]
  · intro h
    have h0 : (x.base : ℚ) * 10 ^ (-x.pow) = 0 := by
      simpa [IntFloat.val, IntFloat.zero] using h
    rcases mul_eq_zero.mp h0 with h1 | h1
    · exact_mod_cast h1
    · exact absurd h1 (IntFloat.ten_zpow_ne_zero _)

/-- C8: `fromStringRadix` parses the text as a plain integer in the given
radix — it returns `fromRaw(n, 0)` exactly when the underlying integer
parser accepts the text with value `n`, and fails with the underlying
integer-parse error otherwise; `"123"` in radix 10 parses to
`fromRaw(123, 0)` and `"abc"` in radix 10 fails with an invalid-digit
parse error. -/
theorem c8_from_str_radix_plain_integer :
    (IntFloat.from_str_radix "123" 10 = .ok ⟨123, 0⟩) ∧
    (IntFloat.from_str_radix "abc" 10 = .error .invalidDigit) ∧
    (∀ (s : String) (r : Nat) (v : IntFloat),
      IntFloat.from_str_radix s r = .ok v ↔
        ∃ n : ℤ, isizeFromStrRadix s r = .ok n ∧ v = ⟨n, 0⟩) ∧
    (∀ (s : String) (r : Nat) (e : IntErrorKind),
      IntFloat.from_str_radix s r = .error e ↔
        isizeFromStrRadix s r = .error e) := by
  refine ⟨rfl, rfl, ?_, ?_⟩
  · intro s r v
    cases h : isizeFromStrRadix s r with
    | error e2 =>
      have hfr : IntFloat.from_str_radix s r = .error e2 := by
        unfold IntFloat.from_str_radix
        rw [h]
      rw [hfr]
      simp
    | ok n =>
      have hfr : IntFloat.from_str_radix s r = .ok ⟨n, 0⟩ := by
        unfold IntFloat.from_str_radix
        rw [h]
      rw [hfr]
      constructor
      · intro hv
        exact ⟨n, rfl, (Except.ok.inj hv).symm⟩
      · rintro ⟨m, hm, rfl⟩
        obtain rfl : n = m := Except.ok.inj hm
        rfl
  · intro s r e
    cases h : isizeFromStrRadix s r with
    | error e2 =>
      have hfr : IntFloat.from_str_radix s r = .error e2 := by
        unfold IntFloat.from_str_radix
        rw [h]
      rw [hfr]
      simp
    | ok n =>
      have hfr : IntFloat.from_str_radix s r = .ok ⟨n, 0⟩ := by
        unfold IntFloat.from_str_radix
        rw [h]
      rw [hfr]
      simp
